import Mathlib

/-!
# Verification of the pipette event-normalization core

Shallow embedding of the pipette repository's core components (Valve,
Slicer, Dropper, Cat) together with proofs about the spec's claims.

Conventions used throughout:

* JavaScript `Buffer` payloads are modelled as `List Nat` (byte sequences).
* Arbitrary JavaScript values (close/error payloads) are modelled by the
  inductive `JSVal`, rich enough to express the `isErrorish` / truthiness
  distinctions the code makes.
* All components are used with the default pass-through codec (no
  `encoding` / `incomingEncoding` option), for which `Codec.encode` and
  `Codec.decode` are the identity on buffers (see lib/codec.js: a `Codec`
  starts with `NO_ENCODING`; `encode` returns a buffer argument as-is and
  `decode` returns the buffer as-is under `NO_ENCODING`).  Hence the
  encode/decode calls in the handlers are identities and are not written
  out in the embedding.
* Event emission is modelled functionally: every operation returns the new
  state together with the list of events it emitted downstream, in order.
-/

/-- Model of the JavaScript values that can appear as `close`/`error`
payloads.  `errObj msg` stands for an `Error` object, `obj n` for any other
object (distinguished by an id). -/
inductive JSVal where
  | jsFalse
  | jsTrue
  | undef
  | null
  | num (n : Int)
  | str (s : String)
  | errObj (msg : String)
  | obj (id : Nat)
deriving DecidableEq, Repr

/-- From lib/errors.js: `isErrorish(value)` returns
`(value !== false) && (value !== undefined)`. -/
def isErrorish : JSVal → Bool
  | .jsFalse => false
  | .undef => false
  | _ => true

/-- JavaScript truthiness for the modelled values (`false`, `undefined`,
`null`, `0` and `""` are falsy; NaN is not modelled). -/
def truthy : JSVal → Bool
  | .jsFalse | .undef | .null => false
  | .num n => decide (n ≠ 0)
  | .str s => decide (s ≠ "")
  | _ => true

theorem truthy_isErrorish {v : JSVal} (h : truthy v = true) : isErrorish v = true := by
  cases v <;> simp_all [truthy, isErrorish]

/-- A raw event observed from an upstream source: the four event kinds of
the source capability.  `fin` models the `end` event (`end` is a Lean
keyword).  These are also exactly the deferred-invocation records a paused
Valve buffers (`{ func: this.onData, arg: data }` etc.). -/
inductive Raw where
  | data (bytes : List Nat)
  | fin
  | error (payload : JSVal)
  | close (info : JSVal)
deriving DecidableEq, Repr

/-- A normalized event emitted downstream by a component.  `fin` models the
`end` event; `close` carries no payload (the components always emit a bare
`close`). -/
inductive Ev where
  | data (bytes : List Nat)
  | fin
  | error (payload : JSVal)
  | close
deriving DecidableEq, Repr

namespace Valve

/-- Valve state, from the `State` constructor in the Valve source
(part_005): `paused`, `buffer` (deferred events), `ended`, plus whether
`this.emitter` is still defined (it is set to `undefined` by `destroy`).
The `source` field is only used for listener (un)subscription and is not
observable here; the two `Codec` fields are identities (see module
comment). -/
structure State where
  paused : Bool
  buffer : List Raw
  ended : Bool
  emitterAlive : Bool
deriving DecidableEq, Repr

/-- `State.prototype.destroy`: detach from the source, clear everything and
mark ended.  (`this.buffer = undefined` is modelled as `[]`; the buffer is
never read again since `resume` requires `paused = true`.) -/
def State.destroy (_s : State) : State :=
  { paused := false, buffer := [], ended := true, emitterAlive := false }

/-- `State.prototype.end` (named `finish` here; `end` is a Lean keyword):
if not yet ended, emit the informational event (`error` if `isError`, else
`end`) followed by `close`, then destroy. -/
def State.finish (s : State) (isError : Bool) (errorArg : JSVal) : State × List Ev :=
  if s.ended then (s, [])
  else
    let evs := if s.emitterAlive then
        (if isError then [Ev.error errorArg] else [Ev.fin]) ++ [Ev.close]
      else []
    (s.destroy, evs)

/-- The four bound event handlers `onClose` / `onData` / `onEnd` /
`onError` of the Valve, dispatched on the raw event kind.  While paused
each pushes its deferred-invocation record onto the buffer; otherwise
`onData` emits directly (when not ended) and the three termination
handlers call `end` (here `finish`). -/
def State.handle (s : State) (r : Raw) : State × List Ev :=
  match r with
  | .close info =>
    if s.paused then ({ s with buffer := s.buffer ++ [Raw.close info] }, [])
    else s.finish (isErrorish info) info
  | .data d =>
    if s.paused then ({ s with buffer := s.buffer ++ [Raw.data d] }, [])
    else if s.ended then (s, []) else (s, [Ev.data d])
  | .fin =>
    if s.paused then ({ s with buffer := s.buffer ++ [Raw.fin] }, [])
    else s.finish false JSVal.undef
  | .error e =>
    if s.paused then ({ s with buffer := s.buffer ++ [Raw.error e] }, [])
    else s.finish true e

/-- Deliver a list of raw events to the valve one at a time, collecting the
emitted events.  This is both how upstream events arrive and how
`resume()` replays the captured buffer (the replay loop invokes the same
handler methods). -/
def State.pump (s : State) : List Raw → State × List Ev
  | [] => (s, [])
  | r :: rest =>
    let p := s.handle r
    let q := p.1.pump rest
    (q.1, p.2 ++ q.2)

/-- `State.prototype.pause`. -/
def State.pause (s : State) : State := { s with paused := true }

/-- `State.prototype.resume`: a no-op when not paused; otherwise clear the
paused flag and replay the captured buffer (`var buf = this.buffer`) in
order.  N.B. the JS code does not clear `this.buffer` here. -/
def State.resume (s : State) : State × List Ev :=
  if s.paused then State.pump { s with paused := false } s.buffer
  else (s, [])

/-- `State.prototype.isReadable`. -/
def State.isReadable (s : State) : Bool := !s.ended

/-- Freshly constructed state (the `State` constructor). -/
def State.init : State :=
  { paused := false, buffer := [], ended := false, emitterAlive := true }

/-- A Valve as constructed by `new Valve(source, {paused})`: the `paused`
option is applied by `opts.handleCommon` via `pause()` right after
construction, before any source event can be observed. -/
def construct (paused : Bool) : State :=
  if paused then State.init.pause else State.init

/-- While paused, every raw event is appended to the buffer and nothing is
emitted. -/
theorem handle_paused (s : State) (h : s.paused = true) (r : Raw) :
    s.handle r = ({ s with buffer := s.buffer ++ [r] }, []) := by
  cases r <;> simp [State.handle, h]

theorem pump_paused (raws : List Raw) (s : State) (h : s.paused = true) :
    State.pump s raws = ({ s with buffer := s.buffer ++ raws }, []) := by
  induction raws generalizing s with
  | nil => simp [State.pump]
  | cons r rest ih =>
    simp only [State.pump, handle_paused s h r]
    rw [ih _ (by simp [h])]
    simp [List.append_assoc]

/-- Data events pass straight through an unpaused, live valve without
changing its state. -/
theorem pump_data_open (ds : List (List Nat)) (s : State)
    (hp : s.paused = false) (he : s.ended = false) :
    State.pump s (ds.map Raw.data) = (s, ds.map Ev.data) := by
  induction ds with
  | nil => simp [State.pump]
  | cons d rest ih => simp [State.pump, State.handle, hp, he, ih]

theorem pump_append (a b : List Raw) (s : State) :
    State.pump s (a ++ b) =
      ((State.pump (State.pump s a).1 b).1,
        (State.pump s a).2 ++ (State.pump (State.pump s a).1 b).2) := by
  induction a generalizing s with
  | nil => simp [State.pump]
  | cons r rest ih => simp [State.pump, ih, List.append_assoc]

/-- A destroyed valve reacts to nothing. -/
theorem handle_destroyed (s : State) (r : Raw)
    (hp : s.paused = false) (he : s.ended = true) :
    s.handle r = (s, []) := by
  cases r <;> simp [State.handle, State.finish, hp, he]

/-- C1: for every finite sequence of Data payloads followed by End
delivered to a Valve constructed paused, nothing is emitted before
`resume()`; `resume()` emits exactly the Data sequence in order, then one
End, then one Close; afterwards no raw event and no further `resume()`
produces any event. -/
theorem valve_paused_data_end_replay (ds : List (List Nat)) :
    (State.pump (construct true) (ds.map Raw.data ++ [Raw.fin])).2 = [] ∧
    ((State.pump (construct true) (ds.map Raw.data ++ [Raw.fin])).1.resume).2 =
      ds.map Ev.data ++ [Ev.fin, Ev.close] ∧
    (∀ r : Raw,
      ((State.pump (construct true) (ds.map Raw.data ++ [Raw.fin])).1.resume).1.handle r =
        (((State.pump (construct true) (ds.map Raw.data ++ [Raw.fin])).1.resume).1, [])) ∧
    ((State.pump (construct true) (ds.map Raw.data ++ [Raw.fin])).1.resume).1.resume =
      (((State.pump (construct true) (ds.map Raw.data ++ [Raw.fin])).1.resume).1, []) := by
  have h1 : State.pump (construct true) (ds.map Raw.data ++ [Raw.fin]) =
      (State.mk true (ds.map Raw.data ++ [Raw.fin]) false true, []) := by
    rw [show construct true = State.mk true [] false true from rfl, pump_paused _ _ rfl]
    rfl
  have h2 : (State.mk true (ds.map Raw.data ++ [Raw.fin]) false true).resume =
      (State.mk false [] true false, ds.map Ev.data ++ [Ev.fin, Ev.close]) := by
    show State.pump (State.mk false (ds.map Raw.data ++ [Raw.fin]) false true)
      (ds.map Raw.data ++ [Raw.fin]) = _
    rw [pump_append, pump_data_open ds _ rfl rfl]
    simp [State.pump, State.handle, State.finish, State.destroy]
  refine ⟨?_, ?_, ?_, ?_⟩
  · simp only [h1]
  · simp only [h1, h2]
  · intro r
    simp only [h1, h2]
    exact handle_destroyed _ r rfl rfl
  · simp only [h1, h2]
    rfl

/-- C3: for a truthy payload `p`, a raw `Close(p)` observed by a live
unpaused Valve yields exactly the event sequence `Error(p), Close`;
delivering `Error(p)` followed by an empty `Close` yields the identical
event sequence and the identical final state, and in both cases nothing is
emitted afterwards. -/
theorem valve_close_errorish_equiv (p : JSVal) (h : truthy p = true) :
    (State.pump (construct false) [Raw.close p]).2 = [Ev.error p, Ev.close] ∧
    State.pump (construct false) [Raw.error p, Raw.close JSVal.undef] =
      State.pump (construct false) [Raw.close p] ∧
    (∀ r : Raw,
      (State.pump (construct false) [Raw.close p]).1.handle r =
        ((State.pump (construct false) [Raw.close p]).1, [])) := by
  have herr : isErrorish p = true := truthy_isErrorish h
  refine ⟨?_, ?_, ?_⟩
  · simp [State.pump, State.handle, construct, State.init, State.finish, herr, State.destroy]
  · simp [State.pump, State.handle, construct, State.init, State.finish, herr, State.destroy]
  · intro r
    have : (State.pump (construct false) [Raw.close p]).1 = State.destroy State.init := by
      simp [State.pump, State.handle, construct, State.init, State.finish, herr]
    rw [this]
    exact handle_destroyed _ r rfl rfl

/-- Witness for C3 at the concrete truthy payload `"boom"`. -/
theorem valve_close_errorish_equiv_witness :
    truthy (JSVal.str "boom") = true ∧
    (State.pump (construct false) [Raw.close (JSVal.str "boom")]).2 =
      [Ev.error (JSVal.str "boom"), Ev.close] ∧
    State.pump (construct false) [Raw.error (JSVal.str "boom"), Raw.close JSVal.undef] =
      State.pump (construct false) [Raw.close (JSVal.str "boom")] :=
  ⟨by decide,
    (valve_close_errorish_equiv (JSVal.str "boom") (by decide)).1,
    (valve_close_errorish_equiv (JSVal.str "boom") (by decide)).2.1⟩

/-- C4 counterexample: a raw `Close` carrying `null` (an empty/false
payload in the claim's sense) is reinterpreted as `Error(null)` followed by
`Close`, not as `End`. -/
theorem valve_close_null_not_end :
    (State.pump (construct false) [Raw.close JSVal.null]).2 =
      [Ev.error JSVal.null, Ev.close] ∧
    (State.pump (construct false) [Raw.close JSVal.null]).2 ≠ [Ev.fin, Ev.close] := by
  constructor
  · rfl
  · decide

/-- C4 (amended): only a raw termination signal whose payload is exactly
`false` or `undefined` (`isErrorish` returning false) is reinterpreted as
`End()` followed by `Close`; every other payload — including `null`, `0`
and the empty string — is reinterpreted as `Error(payload)` followed by
`Close`. -/
theorem valve_close_empty_end (p q : JSVal)
    (hp : isErrorish p = false) (hq : isErrorish q = true) :
    (State.pump (construct false) [Raw.close p]).2 = [Ev.fin, Ev.close] ∧
    (State.pump (construct false) [Raw.close q]).2 = [Ev.error q, Ev.close] := by
  constructor
  · simp [State.pump, State.handle, construct, State.init, State.finish, hp]
  · simp [State.pump, State.handle, construct, State.init, State.finish, hq]

/-- Witness for the amended C4 at `p = false`, `q = null`. -/
theorem valve_close_empty_end_witness :
    isErrorish JSVal.jsFalse = false ∧ isErrorish JSVal.null = true ∧
    (State.pump (construct false) [Raw.close JSVal.jsFalse]).2 = [Ev.fin, Ev.close] ∧
    (State.pump (construct false) [Raw.close JSVal.null]).2 =
      [Ev.error JSVal.null, Ev.close] :=
  ⟨by decide, by decide,
    (valve_close_empty_end JSVal.jsFalse JSVal.null (by decide) (by decide)).1,
    (valve_close_empty_end JSVal.jsFalse JSVal.null (by decide) (by decide)).2⟩

end Valve

namespace Slicer

/-- A pending read, from the `PendingRead` constructor in lib/slicer.js.
`dest` models the optional caller-supplied destination buffer (as its
current contents); `length = none` means "as much as possible". -/
structure PendingRead where
  dest : Option (List Nat)
  offset : Nat
  length : Option Nat
deriving DecidableEq, Repr

/-- The arguments passed to a pending read's completion callback by
`callCallback(error, count, buffer, offset)`: the error flag, the byte
count, the buffer handed to the callback (its contents) and the starting
offset within it. -/
structure ReadResult where
  error : Bool
  count : Nat
  buf : List Nat
  offset : Nat
deriving DecidableEq, Repr

/-- Slicer state, from the `State` constructor in lib/slicer.js:
the FIFO of pending reads, the chunk queue, the cached byte count, the
recorded terminal error (`none` models `NO_ERROR`, `some v` a recorded
error payload — possibly `undef`), and the ended flag.  The upstream
`source` is only used for listener management and the `Codec` is the
identity (see module comment). -/
structure State where
  pendingReads : List PendingRead
  buffers : List (List Nat)
  bufferedLength : Nat
  error : Option JSVal
  ended : Bool
deriving DecidableEq, Repr

/-- Fresh Slicer state (the `State` constructor). -/
def State.init : State :=
  { pendingReads := [], buffers := [], bufferedLength := 0, error := none, ended := false }

/-- The chunk-copy loop inside `PendingRead.prototype.trigger`
(`while ((offset < endOffset) && (bufferedLength > 0)) ...`): given the
chunk queue, the number of bytes still needed, and the cached
`bufferedLength`, it consumes whole chunks that fit and splits
(`slice`s) the first chunk that only partially fits, returning the copied
bytes, the remaining queue and the written-back `bufferedLength`.
The `[]` case can only be reached with `bufferedLength > 0` if the cached
count disagrees with the queue (where the JS would fault); it returns
without copying.  JS `bufferedLength -= oneLength` is modelled with
truncated `Nat` subtraction, which agrees with the JS number whenever the
cached-count invariant holds (see `slicer_buffered_length_invariant`). -/
def readLoop : List (List Nat) → Nat → Nat → List Nat × List (List Nat) × Nat
  | [], _, blen => ([], [], blen)
  | one :: rest, need, blen =>
    if need = 0 ∨ blen = 0 then ([], one :: rest, blen)
    else if one.length ≤ need then
      let r := readLoop rest (need - one.length) (blen - one.length)
      (one ++ r.1, r.2.1, r.2.2)
    else
      (one.take need, one.drop need :: rest, blen - need)

/-- `PendingRead.prototype.trigger` is embedded as `PendingRead.trigger`
below, decomposed into named pieces for the intermediate values its body
computes.  `wanted` is the `length` local after the defaulting and
clamping steps: the requested length, or — if unspecified — all currently
buffered bytes, clamped to the destination's remaining capacity if a
destination was supplied. -/
def PendingRead.wanted (pr : PendingRead) (s : State) : Nat :=
  match pr.dest with
  | some d => min (pr.length.getD s.bufferedLength) (d.length - pr.offset)
  | none => pr.length.getD s.bufferedLength

/-- The amount actually copied: the wanted length, clamped to the buffered
byte count when the trigger is forced past it. -/
def PendingRead.len2 (pr : PendingRead) (s : State) : Nat :=
  if s.bufferedLength < pr.wanted s then s.bufferedLength else pr.wanted s

/-- The bytes the copy loop transfers for this read. -/
def PendingRead.copied (pr : PendingRead) (s : State) : List Nat :=
  (readLoop s.buffers (pr.len2 s) s.bufferedLength).1

/-- The callback arguments for a read that reaches the copy loop: for a
fresh destination, the freshly allocated buffer at offset 0; for a
caller-supplied destination, its contents with the copied bytes written
at `offset`.  The error flag is set exactly when the read was forced
short. -/
def PendingRead.mkResult (pr : PendingRead) (s : State) : ReadResult :=
  match pr.dest with
  | none =>
    ReadResult.mk (decide (s.bufferedLength < pr.wanted s)) (pr.len2 s) (pr.copied s) 0
  | some d =>
    ReadResult.mk (decide (s.bufferedLength < pr.wanted s)) (pr.len2 s)
      (d.take pr.offset ++ pr.copied s ++ d.drop (pr.offset + (pr.copied s).length))
      pr.offset

/-- The state after the copy loop ran for this read: the remaining chunk
queue and the written-back cached count. -/
def PendingRead.afterState (pr : PendingRead) (s : State) : State :=
  { s with buffers := (readLoop s.buffers (pr.len2 s) s.bufferedLength).2.1,
           bufferedLength := (readLoop s.buffers (pr.len2 s) s.bufferedLength).2.2 }

/-- `PendingRead.prototype.trigger(state, force)`: `none` when the read
cannot fire yet, otherwise the callback arguments and the updated state.
In priority order: the zero-length request, the recorded-error report with
an empty buffer, the insufficient-data bail-out (unless forced), and the
copy loop. -/
def PendingRead.trigger (pr : PendingRead) (s : State) (force : Bool) :
    Option (ReadResult × State) :=
  if pr.length = some 0 then
    some ({ error := false, count := 0, buf := pr.dest.getD [], offset := pr.offset }, s)
  else if s.bufferedLength = 0 ∧ s.error ≠ none then
    some ({ error := true, count := 0, buf := pr.dest.getD [], offset := pr.offset }, s)
  else if s.bufferedLength < pr.wanted s ∧ force = false then none
  else some (pr.mkResult s, pr.afterState s)

/-- The loop body of `State.prototype.triggerIfPossible`: repeatedly
trigger the head of the pending-read FIFO, dequeuing each read that
fires, stopping at the first that cannot.  `trigger` never touches the
FIFO itself, so the queue is threaded as a separate argument. -/
def triggerLoop (force : Bool) : List PendingRead → State → State × List PendingRead × List ReadResult
  | [], s => (s, [], [])
  | pr :: rest, s =>
    match pr.trigger s force with
    | none => (s, pr :: rest, [])
    | some (res, s1) =>
      let r := triggerLoop force rest s1
      (r.1, r.2.1, res :: r.2.2)

/-- `State.prototype.triggerIfPossible` (with `force = this.ended`,
captured once before the loop). -/
def State.triggerIfPossible (s : State) : State × List ReadResult :=
  let r := triggerLoop s.ended s.pendingReads s
  ({ r.1 with pendingReads := r.2.1 }, r.2.2)

/-- `State.prototype.isReadable`. -/
def State.isReadable (s : State) : Bool :=
  !(s.ended && s.bufferedLength == 0)

/-- `State.prototype.detach` (listener removal is not observable here;
the effect is the `ended` flag). -/
def State.detach (s : State) : State := { s with ended := true }

/-- `State.prototype.onData`: ignore when ended, else append the (identity-
encoded) chunk, bump the cached count, and retry pending reads. -/
def State.onData (s : State) (data : List Nat) : State × List ReadResult :=
  if s.ended then (s, [])
  else
    State.triggerIfPossible
      { s with buffers := s.buffers ++ [data],
               bufferedLength := s.bufferedLength + data.length }

/-- `State.prototype.onEnd`. -/
def State.onEnd (s : State) : State × List ReadResult :=
  if s.ended then (s, []) else s.detach.triggerIfPossible

/-- `State.prototype.onError`. -/
def State.onError (s : State) (error : JSVal) : State × List ReadResult :=
  if s.ended then (s, [])
  else State.triggerIfPossible { s with error := some error, ended := true }

/-- `State.prototype.onClose`: an errorish payload is recorded as the
terminal error, then the instance detaches and retries pending reads. -/
def State.onClose (s : State) (info : JSVal) : State × List ReadResult :=
  if s.ended then (s, [])
  else
    let s1 := if isErrorish info then { s with error := some info } else s
    s1.detach.triggerIfPossible

/-- `State.prototype.queue`: a newly submitted read is tried immediately
only when the FIFO is empty (forced iff already ended); if it does not
fire it is appended. -/
def State.queue (s : State) (pr : PendingRead) : State × List ReadResult :=
  if s.pendingReads = [] then
    match pr.trigger s s.ended with
    | some (res, s1) => (s1, [res])
    | none => ({ s with pendingReads := s.pendingReads ++ [pr] }, [])
  else ({ s with pendingReads := s.pendingReads ++ [pr] }, [])

/-- `State.prototype.read` (the argument assertions only rule out
out-of-range caller-buffer offsets and are not modelled). -/
def State.read (s : State) (buffer : Option (List Nat)) (offset : Nat)
    (length : Option Nat) : State × List ReadResult :=
  s.queue { dest := buffer, offset := offset, length := length }

/-- `State.prototype.destroy`: detach, force-trigger all still-queued
reads, then drop the chunk queue (`this.buffers = undefined`, modelled
as `[]`; note the JS leaves `bufferedLength` untouched here). -/
def State.destroy (s : State) : State × List ReadResult :=
  let r := s.detach.triggerIfPossible
  ({ r.1 with buffers := [] }, r.2)

end Slicer

namespace Slicer

/-- The cached-count invariant of C9: `bufferedLength` equals the total
number of bytes in the chunk queue. -/
def Inv (s : State) : Prop := s.bufferedLength = s.buffers.flatten.length

instance (s : State) : Decidable (Inv s) := by unfold Inv; infer_instance

/-- Specification of the chunk-copy loop: under the cached-count
invariant, copying `need ≤ bufferedLength` bytes yields exactly the first
`need` buffered bytes, leaves exactly the rest, and writes back the
correctly decremented count. -/
theorem readLoop_spec (bufs : List (List Nat)) (need blen : Nat)
    (hinv : blen = bufs.flatten.length) (hle : need ≤ blen) :
    (readLoop bufs need blen).1 = bufs.flatten.take need ∧
    (readLoop bufs need blen).2.1.flatten = bufs.flatten.drop need ∧
    (readLoop bufs need blen).2.2 = blen - need := by
  induction bufs generalizing need blen with
  | nil =>
    simp only [List.flatten_nil, List.length_nil] at hinv
    subst hinv
    interval_cases need
    simp [readLoop]
  | cons one rest ih =>
    simp only [List.flatten_cons, List.length_append] at hinv
    by_cases hneed : need = 0
    · subst hneed
      simp [readLoop]
    · have hblen : ¬(need = 0 ∨ blen = 0) := by omega
      by_cases hfit : one.length ≤ need
      · have hrec := ih (need - one.length) (blen - one.length) (by omega) (by omega)
        have hstep : readLoop (one :: rest) need blen =
            (one ++ (readLoop rest (need - one.length) (blen - one.length)).1,
              (readLoop rest (need - one.length) (blen - one.length)).2.1,
              (readLoop rest (need - one.length) (blen - one.length)).2.2) := by
          simp only [readLoop, if_neg hblen, if_pos hfit]
        simp only [hstep]
        refine ⟨?_, ?_, ?_⟩
        · rw [hrec.1, List.flatten_cons, List.take_append_eq_append_take,
            List.take_of_length_le hfit]
        · rw [hrec.2.1, List.flatten_cons, List.drop_append_eq_append_drop,
            List.drop_eq_nil_of_le hfit, List.nil_append]
        · rw [hrec.2.2]; omega
      · have hstep : readLoop (one :: rest) need blen =
            (one.take need, one.drop need :: rest, blen - need) := by
          simp only [readLoop, if_neg hblen, if_neg hfit]
        simp only [hstep]
        refine ⟨?_, ?_, ?_⟩
        · rw [List.flatten_cons, List.take_append_eq_append_take,
            show need - one.length = 0 by omega, List.take_zero, List.append_nil]
        · rw [List.flatten_cons, List.flatten_cons, List.drop_append_eq_append_drop,
            show need - one.length = 0 by omega, List.drop_zero]
        · trivial

end Slicer

namespace Slicer

/-- Requested length of a pending read (`0` for `readAll`-style reads,
which never occur in the runs considered here). -/
def prLen (pr : PendingRead) : Nat := pr.length.getD 0

/-- Total requested length of a list of pending reads. -/
def sumLen (prs : List PendingRead) : Nat := (prs.map prLen).sum

/-- A pending read as produced by `Slicer.prototype.read(length, cb)`:
fresh destination buffer, offset 0, definite length. -/
def freshPR (pr : PendingRead) : Prop :=
  pr.dest = none ∧ pr.offset = 0 ∧ ∃ l, pr.length = some l

/-- Priority rule 1 of `trigger`: a zero-length read always fires, with no
error, zero bytes, and an untouched state — even with a recorded error. -/
theorem trigger_zero (pr : PendingRead) (s : State) (force : Bool)
    (h : pr.length = some 0) :
    pr.trigger s force =
      some (ReadResult.mk false 0 (pr.dest.getD []) pr.offset, s) := by
  simp [PendingRead.trigger, h]

/-- The copy amount never exceeds the cached buffered count. -/
theorem len2_le (pr : PendingRead) (s : State) : pr.len2 s ≤ s.bufferedLength := by
  unfold PendingRead.len2
  split <;> omega

/-- Under the cached-count invariant, the post-copy state has the first
`len2` buffered bytes removed and a consistent cached count. -/
theorem afterState_spec (pr : PendingRead) (s : State) (hinv : Inv s) :
    (pr.afterState s).buffers.flatten = s.buffers.flatten.drop (pr.len2 s) ∧
    (pr.afterState s).bufferedLength = s.bufferedLength - pr.len2 s ∧
    Inv (pr.afterState s) := by
  have hrl := readLoop_spec s.buffers (pr.len2 s) s.bufferedLength hinv (len2_le pr s)
  refine ⟨hrl.2.1, hrl.2.2, ?_⟩
  show (readLoop s.buffers (pr.len2 s) s.bufferedLength).2.2 =
    (readLoop s.buffers (pr.len2 s) s.bufferedLength).2.1.flatten.length
  rw [hrl.2.2, hrl.2.1, List.length_drop, hinv]

/-- For a fresh fixed-length read of `l` with `l` bytes available, the
wanted and copied amounts are both `l` and the copied bytes are the first
`l` buffered bytes. -/
theorem fresh_wanted (s : State) (l : Nat) :
    PendingRead.wanted ⟨none, 0, some l⟩ s = l := rfl

/-- A fresh fixed-length read for `l ≠ 0` bytes with `l` bytes buffered
fires without error, delivering exactly the first `l` buffered bytes. -/
theorem trigger_fresh_fires (s : State) (l : Nat) (force : Bool)
    (h0 : l ≠ 0) (hle : l ≤ s.bufferedLength) (hinv : Inv s) :
    PendingRead.trigger ⟨none, 0, some l⟩ s force =
      some (ReadResult.mk false l (s.buffers.flatten.take l) 0,
        PendingRead.afterState ⟨none, 0, some l⟩ s) ∧
    (PendingRead.afterState ⟨none, 0, some l⟩ s).buffers.flatten =
      s.buffers.flatten.drop l ∧
    (PendingRead.afterState ⟨none, 0, some l⟩ s).bufferedLength =
      s.bufferedLength - l ∧
    Inv (PendingRead.afterState ⟨none, 0, some l⟩ s) ∧
    (PendingRead.afterState ⟨none, 0, some l⟩ s).error = s.error ∧
    (PendingRead.afterState ⟨none, 0, some l⟩ s).ended = s.ended ∧
    (PendingRead.afterState ⟨none, 0, some l⟩ s).pendingReads = s.pendingReads := by
  have hns : ¬s.bufferedLength < l := by omega
  have hw : PendingRead.wanted ⟨none, 0, some l⟩ s = l := rfl
  have hl2 : PendingRead.len2 ⟨none, 0, some l⟩ s = l := by
    unfold PendingRead.len2
    rw [hw, if_neg hns]
  have hrl := readLoop_spec s.buffers l s.bufferedLength hinv hle
  have hspec := afterState_spec ⟨none, 0, some l⟩ s hinv
  rw [hl2] at hspec
  refine ⟨?_, hspec.1, hspec.2.1, hspec.2.2, rfl, rfl, rfl⟩
  unfold PendingRead.trigger
  rw [if_neg (by simp [h0]), if_neg (by rintro ⟨hz, -⟩; omega),
    if_neg (by rw [hw]; simp [hns])]
  unfold PendingRead.mkResult PendingRead.copied
  rw [hw]
  simp only [hl2]
  rw [hrl.1]
  simp [hns]

/-- A fresh fixed-length read for more bytes than are buffered cannot fire
without forcing (when no terminal error is recorded). -/
theorem trigger_fresh_stuck (s : State) (l : Nat)
    (hgt : s.bufferedLength < l) (herr : s.error = none) :
    PendingRead.trigger ⟨none, 0, some l⟩ s false = none := by
  have h0 : l ≠ 0 := by omega
  have hw : PendingRead.wanted ⟨none, 0, some l⟩ s = l := rfl
  unfold PendingRead.trigger
  rw [if_neg (by simp [h0]), if_neg (by rintro ⟨-, hne⟩; exact hne herr),
    if_pos (by rw [hw]; exact ⟨hgt, rfl⟩)]

/-- Priority rule 5 of `trigger`: a forced fresh read for more bytes than
are buffered (with at least one byte buffered) fires as a short read: it
delivers all remaining buffered bytes with the error flag set, emptying
the buffer. -/
theorem trigger_forced_short (s : State) (l : Nat)
    (hgt : s.bufferedLength < l) (h0 : 0 < s.bufferedLength) (hinv : Inv s) :
    PendingRead.trigger ⟨none, 0, some l⟩ s true =
      some (ReadResult.mk true s.bufferedLength s.buffers.flatten 0,
        PendingRead.afterState ⟨none, 0, some l⟩ s) ∧
    (PendingRead.afterState ⟨none, 0, some l⟩ s).buffers.flatten = [] ∧
    (PendingRead.afterState ⟨none, 0, some l⟩ s).bufferedLength = 0 ∧
    (PendingRead.afterState ⟨none, 0, some l⟩ s).error = s.error ∧
    (PendingRead.afterState ⟨none, 0, some l⟩ s).ended = s.ended ∧
    (PendingRead.afterState ⟨none, 0, some l⟩ s).pendingReads = s.pendingReads := by
  have hl0 : l ≠ 0 := by omega
  have hw : PendingRead.wanted ⟨none, 0, some l⟩ s = l := rfl
  have hl2 : PendingRead.len2 ⟨none, 0, some l⟩ s = s.bufferedLength := by
    unfold PendingRead.len2
    rw [hw, if_pos hgt]
  have hrl := readLoop_spec s.buffers s.bufferedLength s.bufferedLength hinv le_rfl
  have hspec := afterState_spec ⟨none, 0, some l⟩ s hinv
  rw [hl2] at hspec
  have hdropall : s.buffers.flatten.drop s.bufferedLength = [] := by
    rw [hinv]; exact List.drop_eq_nil_of_le le_rfl
  refine ⟨?_, ?_, ?_, rfl, rfl, rfl⟩
  · unfold PendingRead.trigger
    rw [if_neg (by simp [hl0]), if_neg (by rintro ⟨hz, -⟩; omega),
      if_neg (by rintro ⟨-, hff⟩; cases hff)]
    unfold PendingRead.mkResult PendingRead.copied
    rw [hw]
    have htake : List.take s.bufferedLength s.buffers.flatten = s.buffers.flatten := by
      rw [hinv]
      exact List.take_of_length_le le_rfl
    simp only [hl2]
    rw [hrl.1, htake]
    simp [hgt]
  · rw [hspec.1, hdropall]
  · rw [hspec.2.1]; omega

/-- Any firing of `trigger` preserves the cached-count invariant and never
touches `error`, `ended` or the pending-read FIFO. -/
theorem trigger_inv (pr : PendingRead) (s : State) (force : Bool)
    (hinv : Inv s) (res : ReadResult) (s1 : State)
    (h : pr.trigger s force = some (res, s1)) :
    Inv s1 ∧ s1.error = s.error ∧ s1.ended = s.ended ∧
      s1.pendingReads = s.pendingReads := by
  unfold PendingRead.trigger at h
  split at h
  · obtain ⟨-, rfl⟩ : _ = res ∧ s = s1 := by
      simpa [Prod.ext_iff] using h
    exact ⟨hinv, rfl, rfl, rfl⟩
  · split at h
    · obtain ⟨-, rfl⟩ : _ = res ∧ s = s1 := by
        simpa [Prod.ext_iff] using h
      exact ⟨hinv, rfl, rfl, rfl⟩
    · split at h
      · exact absurd h (by simp)
      · obtain ⟨-, rfl⟩ : pr.mkResult s = res ∧ pr.afterState s = s1 := by
          simpa [Prod.ext_iff] using h
        have hspec := afterState_spec pr s hinv
        exact ⟨hspec.2.2, rfl, rfl, rfl⟩

end Slicer

namespace Slicer

/-- The retry loop preserves the cached-count invariant and leaves
`error` / `ended` / the stored FIFO field untouched. -/
theorem triggerLoop_inv (force : Bool) (prs : List PendingRead) (s : State)
    (hinv : Inv s) :
    Inv (triggerLoop force prs s).1 ∧
    (triggerLoop force prs s).1.error = s.error ∧
    (triggerLoop force prs s).1.ended = s.ended ∧
    (triggerLoop force prs s).1.pendingReads = s.pendingReads := by
  induction prs generalizing s with
  | nil => exact ⟨hinv, rfl, rfl, rfl⟩
  | cons pr rest ih =>
    cases htr : pr.trigger s force with
    | none =>
      simp only [triggerLoop, htr]
      refine ⟨hinv, ?_, ?_, ?_⟩ <;> trivial
    | some rs =>
      obtain ⟨res, s1⟩ := rs
      have h1 := trigger_inv pr s force hinv res s1 htr
      have h2 := ih s1 h1.1
      simp only [triggerLoop, htr]
      exact ⟨h2.1, h2.2.1.trans h1.2.1, h2.2.2.1.trans h1.2.2.1,
        h2.2.2.2.trans h1.2.2.2⟩

/-- `triggerIfPossible` preserves the cached-count invariant, `error` and
`ended`. -/
theorem triggerIfPossible_inv (s : State) (hinv : Inv s) :
    Inv s.triggerIfPossible.1 ∧ s.triggerIfPossible.1.error = s.error ∧
      s.triggerIfPossible.1.ended = s.ended := by
  have h := triggerLoop_inv s.ended s.pendingReads s hinv
  exact ⟨h.1, h.2.1, h.2.2.1⟩

/-- C9: after every operation of the Slicer — construction, data arrival,
end/error/close handling, read submission, and pending-read triggering —
the cached `bufferedLength` counter equals the total length of the chunks
in the buffer queue. -/
theorem slicer_buffered_length_invariant :
    Inv State.init ∧
    (∀ (s : State) (c : List Nat), Inv s → Inv (s.onData c).1) ∧
    (∀ s : State, Inv s → Inv s.onEnd.1) ∧
    (∀ (s : State) (e : JSVal), Inv s → Inv (s.onError e).1) ∧
    (∀ (s : State) (i : JSVal), Inv s → Inv (s.onClose i).1) ∧
    (∀ (s : State) (dest : Option (List Nat)) (off : Nat) (len : Option Nat),
      Inv s → Inv (s.read dest off len).1) ∧
    (∀ s : State, Inv s → Inv s.triggerIfPossible.1) := by
  have hpush : ∀ (s : State) (c : List Nat), Inv s →
      Inv { s with buffers := s.buffers ++ [c],
                   bufferedLength := s.bufferedLength + c.length } := by
    intro s c hinv
    show s.bufferedLength + c.length = (s.buffers ++ [c]).flatten.length
    rw [List.flatten_append, List.length_append, hinv]
    simp
  refine ⟨rfl, ?_, ?_, ?_, ?_, ?_, ?_⟩
  · intro s c hinv
    unfold State.onData
    split
    · exact hinv
    · exact (triggerIfPossible_inv _ (hpush s c hinv)).1
  · intro s hinv
    unfold State.onEnd
    split
    · exact hinv
    · refine (triggerIfPossible_inv _ ?_).1
      exact hinv
  · intro s e hinv
    unfold State.onError
    split
    · exact hinv
    · refine (triggerIfPossible_inv _ ?_).1
      exact hinv
  · intro s i hinv
    unfold State.onClose
    split
    · exact hinv
    · refine (triggerIfPossible_inv _ ?_).1
      split <;> exact hinv
  · intro s dest off len hinv
    unfold State.read State.queue
    split
    · cases htr : PendingRead.trigger ⟨dest, off, len⟩ s s.ended with
      | none => exact hinv
      | some rs =>
        exact (trigger_inv _ s s.ended hinv rs.1 rs.2 (by rw [htr])).1
    · exact hinv
  · intro s hinv
    exact (triggerIfPossible_inv s hinv).1

/-- Witness for C9: the invariant holds initially and is preserved across
a concrete data arrival. -/
theorem slicer_buffered_length_invariant_witness :
    Inv State.init ∧ Inv (State.init.onData [7, 8, 9]).1 :=
  ⟨slicer_buffered_length_invariant.1,
    slicer_buffered_length_invariant.2.1 State.init [7, 8, 9]
      slicer_buffered_length_invariant.1⟩

end Slicer

namespace Slicer

/-- One step of a Slicer usage scenario: either a `data` chunk arrives
from the source, or the client submits `read(len, cb)` (fresh destination
buffer, definite length). -/
inductive SliceOp where
  | arrive (chunk : List Nat)
  | submit (len : Nat)
deriving DecidableEq, Repr

/-- Run a scenario, collecting every read completion in callback order. -/
def runOps (s : State) : List SliceOp → State × List ReadResult
  | [] => (s, [])
  | op :: rest =>
    let p := match op with
      | SliceOp.arrive c => s.onData c
      | SliceOp.submit l => s.read none 0 (some l)
    let q := runOps p.1 rest
    (q.1, p.2 ++ q.2)

/-- The data chunks of a scenario, in arrival order. -/
def arrivals : List SliceOp → List (List Nat)
  | [] => []
  | SliceOp.arrive c :: rest => c :: arrivals rest
  | SliceOp.submit _ :: rest => arrivals rest

/-- The requested read lengths of a scenario, in submission order. -/
def submits : List SliceOp → List Nat
  | [] => []
  | SliceOp.arrive _ :: rest => submits rest
  | SliceOp.submit l :: rest => l :: submits rest

/-- After `triggerIfPossible`, the head of the queue (if any) wants more
bytes than are buffered. -/
def headRoom (s : State) : Prop :=
  match s.pendingReads with
  | [] => True
  | pr :: _ => s.bufferedLength < prLen pr

/-- The states reachable in a C2 scenario: count cached correctly, no
terminal event seen, every queued read fresh, and the queue head (if any)
unsatisfiable. -/
def C2Inv (s : State) : Prop :=
  Inv s ∧ s.error = none ∧ s.ended = false ∧
    (∀ pr ∈ s.pendingReads, freshPR pr) ∧ headRoom s


/-- Behaviour of the retry loop in a C2 scenario: it dequeues a prefix of
the queue, hands each dequeued read exactly its requested bytes off the
front of the buffer (error-free), and stops with an empty queue or an
unsatisfiable head. -/
theorem triggerLoop_c2 (prs : List PendingRead) (s : State)
    (hinv : Inv s) (herr : s.error = none)
    (hfresh : ∀ pr ∈ prs, freshPR pr) :
    Inv (triggerLoop false prs s).1 ∧
    (triggerLoop false prs s).1.error = none ∧
    (triggerLoop false prs s).1.ended = s.ended ∧
    (triggerLoop false prs s).1.pendingReads = s.pendingReads ∧
    (((triggerLoop false prs s).2.2.map ReadResult.buf).flatten ++
        (triggerLoop false prs s).1.buffers.flatten = s.buffers.flatten) ∧
    (sumLen (triggerLoop false prs s).2.1 +
        (((triggerLoop false prs s).2.2.map ReadResult.buf).flatten).length =
      sumLen prs) ∧
    (∀ res ∈ (triggerLoop false prs s).2.2, res.error = false) ∧
    (∀ pr ∈ (triggerLoop false prs s).2.1, freshPR pr) ∧
    ((triggerLoop false prs s).2.1 = [] ∨
      ∃ pr rest2, (triggerLoop false prs s).2.1 = pr :: rest2 ∧
        (triggerLoop false prs s).1.bufferedLength < prLen pr) := by
  induction prs generalizing s with
  | nil =>
    simp only [triggerLoop]
    refine ⟨hinv, herr, trivial, trivial, by simp, by simp [sumLen], by simp, by simp,
      Or.inl trivial⟩
  | cons pr rest ih =>
    obtain ⟨hd, ho, l, hl⟩ := hfresh pr (List.mem_cons_self pr rest)
    obtain ⟨dest, off, len⟩ := pr
    simp only at hd ho hl
    subst hd
    subst ho
    subst hl
    have hfr : ∀ q ∈ rest, freshPR q := fun q hm => hfresh q (List.mem_cons_of_mem _ hm)
    by_cases hz : l = 0
    · subst hz
      have htr := trigger_zero ⟨none, 0, some 0⟩ s false rfl
      have hr := ih s hinv herr hfr
      simp only [triggerLoop, htr]
      refine ⟨hr.1, hr.2.1, hr.2.2.1, hr.2.2.2.1, ?_, ?_, ?_,
        hr.2.2.2.2.2.2.2.1, hr.2.2.2.2.2.2.2.2⟩
      · simpa using hr.2.2.2.2.1
      · have h6 := hr.2.2.2.2.2.1
        simp only [List.map_cons, List.flatten_cons, sumLen, List.sum_cons, prLen,
          Option.getD_some, Option.getD_none] at h6 ⊢
        simpa using h6
      · intro res hres
        rcases List.mem_cons.mp hres with h1 | h2
        · rw [h1]
        · exact hr.2.2.2.2.2.2.1 res h2
    · by_cases hle : l ≤ s.bufferedLength
      · have hff := trigger_fresh_fires s l false hz hle hinv
        have hr := ih (PendingRead.afterState ⟨none, 0, some l⟩ s)
          hff.2.2.2.1 (hff.2.2.2.2.1.trans herr) hfr
        have hlen : (s.buffers.flatten.take l).length = l := by
          rw [List.length_take]
          have : l ≤ s.buffers.flatten.length := by rw [← hinv]; exact hle
          omega
        simp only [triggerLoop, hff.1]
        refine ⟨hr.1, hr.2.1, hr.2.2.1.trans hff.2.2.2.2.2.1,
          hr.2.2.2.1.trans hff.2.2.2.2.2.2, ?_, ?_, ?_,
          hr.2.2.2.2.2.2.2.1, hr.2.2.2.2.2.2.2.2⟩
        · simp only [List.map_cons, List.flatten_cons, List.append_assoc]
          rw [hr.2.2.2.2.1, hff.2.1, List.take_append_drop]
        · have h6 := hr.2.2.2.2.2.1
          simp only [List.map_cons, List.flatten_cons, List.length_append, hlen,
            sumLen, List.sum_cons, prLen, Option.getD_some] at h6 ⊢
          omega
        · intro res hres
          rcases List.mem_cons.mp hres with h1 | h2
          · rw [h1]
          · exact hr.2.2.2.2.2.2.1 res h2
      · have htr := trigger_fresh_stuck s l (by omega) herr
        simp only [triggerLoop, htr]
        refine ⟨hinv, herr, trivial, trivial, by simp, by simp, by simp, ?_, ?_⟩
        · intro q hm
          exact hfresh q hm
        · exact Or.inr ⟨⟨none, 0, some l⟩, rest, rfl, by simp [prLen]; omega⟩

end Slicer

namespace Slicer

/-- Appending a chunk and bumping the cached count preserves the
invariant. -/
theorem Inv_push (s : State) (c : List Nat) (hinv : Inv s) :
    Inv { s with buffers := s.buffers ++ [c],
                 bufferedLength := s.bufferedLength + c.length } := by
  show s.bufferedLength + c.length = (s.buffers ++ [c]).flatten.length
  rw [List.flatten_append, List.length_append, hinv]
  simp

/-- `triggerIfPossible` in a C2 state: delivers a prefix of the buffered
bytes to a prefix of the queue, error-free, preserving the C2 invariant
and the byte/length accounting. -/
theorem tip_c2 (s : State) (hinv : Inv s) (herr : s.error = none)
    (hend : s.ended = false) (hfresh : ∀ pr ∈ s.pendingReads, freshPR pr) :
    C2Inv s.triggerIfPossible.1 ∧
    ((s.triggerIfPossible.2.map ReadResult.buf).flatten ++
        s.triggerIfPossible.1.buffers.flatten = s.buffers.flatten) ∧
    (sumLen s.triggerIfPossible.1.pendingReads +
        ((s.triggerIfPossible.2.map ReadResult.buf).flatten).length =
      sumLen s.pendingReads) ∧
    (∀ res ∈ s.triggerIfPossible.2, res.error = false) := by
  have h := triggerLoop_c2 s.pendingReads s hinv herr hfresh
  have hloop : s.triggerIfPossible =
      ({ (triggerLoop false s.pendingReads s).1 with
          pendingReads := (triggerLoop false s.pendingReads s).2.1 },
        (triggerLoop false s.pendingReads s).2.2) := by
    unfold State.triggerIfPossible
    rw [hend]
  rw [hloop]
  refine ⟨⟨h.1, h.2.1, h.2.2.1.trans hend, h.2.2.2.2.2.2.2.1, ?_⟩,
    h.2.2.2.2.1, h.2.2.2.2.2.1, h.2.2.2.2.2.2.1⟩
  rcases h.2.2.2.2.2.2.2.2 with h0 | ⟨pr, rest2, heq, hlt⟩
  · simp [headRoom, h0]
  · simpa [headRoom, heq] using hlt

/-- A data arrival in a C2 state: bytes are conserved, completions are
error-free, and the queued demand decreases by exactly the delivered
bytes. -/
theorem onData_c2 (s : State) (c : List Nat) (hc2 : C2Inv s) :
    C2Inv (s.onData c).1 ∧
    (((s.onData c).2.map ReadResult.buf).flatten ++
        (s.onData c).1.buffers.flatten = s.buffers.flatten ++ c) ∧
    (sumLen (s.onData c).1.pendingReads +
        (((s.onData c).2.map ReadResult.buf).flatten).length =
      sumLen s.pendingReads) ∧
    (∀ res ∈ (s.onData c).2, res.error = false) := by
  obtain ⟨hinv, herr, hend, hfresh, -⟩ := hc2
  have hod : s.onData c = State.triggerIfPossible
      { s with buffers := s.buffers ++ [c],
               bufferedLength := s.bufferedLength + c.length } := by
    unfold State.onData
    rw [if_neg (by simp [hend])]
  have htip := tip_c2
    { s with buffers := s.buffers ++ [c],
             bufferedLength := s.bufferedLength + c.length }
    (Inv_push s c hinv) herr hend hfresh
  rw [hod]
  refine ⟨htip.1, ?_, htip.2.2.1, htip.2.2.2⟩
  rw [htip.2.1]
  simp [List.flatten_append]

end Slicer

namespace Slicer

/-- A `read(l, cb)` submission in a C2 state: it either completes at once
with exactly `l` buffered bytes (error-free) or joins the queue; bytes
are conserved and queued demand grows by `l` minus what was delivered. -/
theorem submit_c2 (s : State) (l : Nat) (hc2 : C2Inv s) :
    C2Inv (s.read none 0 (some l)).1 ∧
    (((s.read none 0 (some l)).2.map ReadResult.buf).flatten ++
        (s.read none 0 (some l)).1.buffers.flatten = s.buffers.flatten) ∧
    (sumLen (s.read none 0 (some l)).1.pendingReads +
        (((s.read none 0 (some l)).2.map ReadResult.buf).flatten).length =
      sumLen s.pendingReads + l) ∧
    (∀ res ∈ (s.read none 0 (some l)).2, res.error = false) := by
  obtain ⟨hinv, herr, hend, hfresh, hhead⟩ := hc2
  have hfr : freshPR ⟨none, 0, some l⟩ := ⟨rfl, rfl, l, rfl⟩
  unfold State.read State.queue
  by_cases hq : s.pendingReads = []
  · rw [if_pos hq, hend]
    by_cases hz : l = 0
    · subst hz
      have htr := trigger_zero ⟨none, 0, some 0⟩ s false rfl
      simp only [htr]
      refine ⟨⟨hinv, herr, hend, hfresh, hhead⟩, by simp, by simp, by simp⟩
    · by_cases hle : l ≤ s.bufferedLength
      · have hff := trigger_fresh_fires s l false hz hle hinv
        have hlen : (s.buffers.flatten.take l).length = l := by
          rw [List.length_take]
          have hfl : l ≤ s.buffers.flatten.length := by rw [← hinv]; exact hle
          omega
        simp only [hff.1]
        refine ⟨⟨hff.2.2.2.1, hff.2.2.2.2.1.trans herr,
          hff.2.2.2.2.2.1.trans hend, ?_, ?_⟩, ?_, ?_, by simp⟩
        · rw [hff.2.2.2.2.2.2, hq]
          intro pr hm
          cases hm
        · show headRoom _
          unfold headRoom
          rw [hff.2.2.2.2.2.2, hq]
          trivial
        · simp only [List.map_cons, List.map_nil, List.flatten_cons, List.flatten_nil,
            List.append_nil]
          rw [hff.2.1, List.take_append_drop]
        · rw [hff.2.2.2.2.2.2, hq]
          simp [sumLen, hlen]
      · have htr := trigger_fresh_stuck s l (by omega) herr
        simp only [htr]
        refine ⟨⟨hinv, herr, rfl, ?_, ?_⟩, by simp, ?_, by simp⟩
        · intro pr hm
          rw [hq] at hm
          simp at hm
          rw [hm]
          exact hfr
        · show headRoom _
          unfold headRoom
          rw [hq]
          simp only [List.nil_append]
          show s.bufferedLength < prLen ⟨none, 0, some l⟩
          simp only [prLen, Option.getD_some]
          omega
        · rw [hq]
          simp [sumLen, prLen]
  · rw [if_neg hq]
    obtain ⟨p0, prest, hps⟩ := List.exists_cons_of_ne_nil hq
    refine ⟨⟨hinv, herr, hend, ?_, ?_⟩, by simp, ?_, by simp⟩
    · intro pr hm
      simp only [List.mem_append, List.mem_singleton] at hm
      rcases hm with hm | hm
      · exact hfresh pr hm
      · rw [hm]
        exact hfr
    · show headRoom _
      unfold headRoom
      rw [hps]
      simp only [List.cons_append]
      have := hhead
      unfold headRoom at this
      rw [hps] at this
      exact this
    · simp only [List.map_nil, List.flatten_nil, List.length_nil, Nat.add_zero]
      rw [hps]
      simp [sumLen, prLen, List.sum_append]
      omega

end Slicer

namespace Slicer

/-- Running any C2 scenario preserves the C2 invariant, conserves bytes
(delivered + still-buffered = initially-buffered + arrived) and keeps the
demand accounting (queued + delivered = initially-queued + submitted);
all completions are error-free. -/
theorem runOps_spec (ops : List SliceOp) (s : State) (hc2 : C2Inv s) :
    C2Inv (runOps s ops).1 ∧
    (((runOps s ops).2.map ReadResult.buf).flatten ++
        (runOps s ops).1.buffers.flatten =
      s.buffers.flatten ++ (arrivals ops).flatten) ∧
    (sumLen (runOps s ops).1.pendingReads +
        (((runOps s ops).2.map ReadResult.buf).flatten).length =
      sumLen s.pendingReads + (submits ops).sum) ∧
    (∀ res ∈ (runOps s ops).2, res.error = false) := by
  induction ops generalizing s with
  | nil =>
    exact ⟨hc2, by simp [runOps, arrivals], by simp [runOps, submits], by simp [runOps]⟩
  | cons op rest ih =>
    cases op with
    | arrive c =>
      have hstep := onData_c2 s c hc2
      have hr := ih (s.onData c).1 hstep.1
      simp only [runOps, arrivals, submits]
      refine ⟨hr.1, ?_, ?_, ?_⟩
      · simp only [List.map_append, List.flatten_append, List.append_assoc,
          List.flatten_cons]
        rw [hr.2.1, ← List.append_assoc, hstep.2.1, List.append_assoc]
      · simp only [List.map_append, List.flatten_append, List.length_append]
        have h1 := hr.2.2.1
        have h2 := hstep.2.2.1
        omega
      · intro res hres
        rcases List.mem_append.mp hres with hm | hm
        · exact hstep.2.2.2 res hm
        · exact hr.2.2.2 res hm
    | submit l =>
      have hstep := submit_c2 s l hc2
      have hr := ih (s.read none 0 (some l)).1 hstep.1
      simp only [runOps, arrivals, submits]
      refine ⟨hr.1, ?_, ?_, ?_⟩
      · simp only [List.map_append, List.flatten_append, List.append_assoc]
        rw [hr.2.1, ← List.append_assoc, hstep.2.1]
      · simp only [List.map_append, List.flatten_append, List.length_append,
          List.sum_cons]
        have h1 := hr.2.2.1
        have h2 := hstep.2.2.1
        omega
      · intro res hres
        rcases List.mem_append.mp hres with hm | hm
        · exact hstep.2.2.2 res hm
        · exact hr.2.2.2 res hm

/-- C2: for every input byte sequence, every partition of it into arriving
Data chunks, and every sequence of `read(length)` submissions whose
lengths sum to the total input length — interleaved with the arrivals in
any order — the concatenation of the byte ranges delivered to the
callbacks, in callback order, is exactly the original input, and no
completion carries the error flag. -/
theorem slicer_byte_roundtrip (ops : List SliceOp)
    (hsum : (submits ops).sum = (arrivals ops).flatten.length) :
    (((runOps State.init ops).2).map ReadResult.buf).flatten =
      (arrivals ops).flatten ∧
    ∀ res ∈ (runOps State.init ops).2, res.error = false := by
  have hc2 : C2Inv State.init :=
    ⟨rfl, rfl, rfl, fun pr hm => absurd hm (List.not_mem_nil pr), trivial⟩
  obtain ⟨⟨hinv, herr, hend, hfresh, hhead⟩, hcons, hsums, herrs⟩ :=
    runOps_spec ops State.init hc2
  refine ⟨?_, herrs⟩
  have hconsF : (((runOps State.init ops).2).map ReadResult.buf).flatten ++
      (runOps State.init ops).1.buffers.flatten = (arrivals ops).flatten := by
    simpa using hcons
  have hlen := congrArg List.length hconsF
  simp only [List.length_append] at hlen
  have hsumsF : sumLen (runOps State.init ops).1.pendingReads +
      ((((runOps State.init ops).2).map ReadResult.buf).flatten).length =
      (submits ops).sum := by
    simpa [sumLen, State.init] using hsums
  rcases hps : (runOps State.init ops).1.pendingReads with _ | ⟨pr, tail⟩
  · have hP : sumLen (runOps State.init ops).1.pendingReads = 0 := by
      rw [hps]; rfl
    have hB : (runOps State.init ops).1.buffers.flatten.length = 0 := by omega
    have hBnil : (runOps State.init ops).1.buffers.flatten = [] :=
      List.eq_nil_of_length_eq_zero hB
    rw [hBnil, List.append_nil] at hconsF
    exact hconsF
  · exfalso
    have hgt : (runOps State.init ops).1.bufferedLength < prLen pr := by
      have hh := hhead
      unfold headRoom at hh
      rw [hps] at hh
      exact hh
    have hP : sumLen (runOps State.init ops).1.pendingReads =
        prLen pr + sumLen tail := by
      rw [hps]; simp [sumLen]
    have hBL := hinv
    unfold Inv at hBL
    omega

/-- Witness for C2: two reads of 2 and 3 bytes queued ahead of data, the
data arriving as chunks of 2, 1 and 3 bytes, and a final 1-byte read;
the callbacks together receive exactly the input `[1, 2, 3, 4, 5, 6]`. -/
theorem slicer_byte_roundtrip_witness :
    (submits [SliceOp.submit 2, SliceOp.submit 3, SliceOp.arrive [1, 2],
        SliceOp.arrive [3], SliceOp.arrive [4, 5, 6], SliceOp.submit 1]).sum =
      (arrivals [SliceOp.submit 2, SliceOp.submit 3, SliceOp.arrive [1, 2],
        SliceOp.arrive [3], SliceOp.arrive [4, 5, 6],
        SliceOp.submit 1]).flatten.length ∧
    (((runOps State.init [SliceOp.submit 2, SliceOp.submit 3,
        SliceOp.arrive [1, 2], SliceOp.arrive [3], SliceOp.arrive [4, 5, 6],
        SliceOp.submit 1]).2).map ReadResult.buf).flatten =
      [1, 2, 3, 4, 5, 6] :=
  ⟨by decide,
    (slicer_byte_roundtrip _ (by decide)).1.trans (by decide)⟩

end Slicer

namespace Slicer

/-- C5: on a Slicer whose source has permanently ended, a read submitted
on an empty queue requesting more bytes than remain buffered completes
immediately as a short read: it delivers exactly the remaining buffered
bytes with the error/partial flag set, leaving the buffer empty. -/
theorem slicer_forced_short_read (s : State) (l : Nat)
    (hq : s.pendingReads = []) (hinv : Inv s) (hE : s.ended = true)
    (h0 : 0 < s.bufferedLength) (hl : s.bufferedLength < l) :
    (s.read none 0 (some l)).2 =
      [ReadResult.mk true s.bufferedLength s.buffers.flatten 0] ∧
    (s.read none 0 (some l)).1.buffers.flatten = [] ∧
    (s.read none 0 (some l)).1.bufferedLength = 0 := by
  have hfs := trigger_forced_short s l hl h0 hinv
  unfold State.read State.queue
  rw [if_pos hq, hE]
  simp only [hfs.1]
  exact ⟨trivial, hfs.2.1, hfs.2.2.1⟩

/-- Witness for C5, the spec's example: feed "abcdef" (bytes 97..102) then
End; `read(4)` delivers ("abcd", no error) and a second `read(4)` delivers
("ef", error flag set). -/
theorem slicer_forced_short_read_witness :
    ((State.init.onData [97, 98, 99, 100, 101, 102]).1.onEnd.1.read
        none 0 (some 4)).2 = [ReadResult.mk false 4 [97, 98, 99, 100] 0] ∧
    (((State.init.onData [97, 98, 99, 100, 101, 102]).1.onEnd.1.read
        none 0 (some 4)).1.read none 0 (some 4)).2 =
      [ReadResult.mk true 2 [101, 102] 0] :=
  ⟨by decide,
    ((slicer_forced_short_read _ 4 (by decide) (by decide) (by decide) (by decide)
      (by decide)).1).trans (by decide)⟩

/-- C6 counterexample: with a 5-byte read already queued (and no data
buffered), a zero-byte read does not complete immediately — it is
appended behind the blocked read, and no callback fires. -/
theorem slicer_zero_read_queued_counterexample :
    ((State.init.read none 0 (some 5)).1.read none 0 (some 0)).2 = [] ∧
    ((State.init.read none 0 (some 5)).1.read none 0 (some 0)).1.pendingReads.length
      = 2 := by
  decide

/-- C6 (amended): a zero-byte read completes with zero bytes and no error
indication whenever it is triggered — in particular immediately upon
submission when no reads are queued ahead of it — even when a terminal
error has been recorded and zero bytes are buffered; a zero-byte read
submitted behind other queued reads is deferred until it reaches the head
of the FIFO. -/
theorem slicer_zero_read (s : State) (dest : Option (List Nat)) (off : Nat)
    (force : Bool) :
    PendingRead.trigger ⟨dest, off, some 0⟩ s force =
      some (ReadResult.mk false 0 (dest.getD []) off, s) ∧
    (s.pendingReads = [] →
      s.read dest off (some 0) = (s, [ReadResult.mk false 0 (dest.getD []) off])) := by
  refine ⟨trigger_zero ⟨dest, off, some 0⟩ s force rfl, ?_⟩
  intro hq
  unfold State.read State.queue
  rw [if_pos hq]
  simp only [trigger_zero ⟨dest, off, some 0⟩ s s.ended rfl]

/-- Witness for the amended C6 at a state with a recorded terminal error
and an empty buffer (where any non-zero read would report the error). -/
theorem slicer_zero_read_witness :
    (State.mk [] [] 0 (some (JSVal.str "boom")) true).read none 0 (some 0) =
      (State.mk [] [] 0 (some (JSVal.str "boom")) true,
        [ReadResult.mk false 0 [] 0]) :=
  (slicer_zero_read (State.mk [] [] 0 (some (JSVal.str "boom")) true)
    none 0 true).2 rfl

/-- C10: `readable` is false exactly when the instance has ended with zero
bytes buffered; after the source terminates while bytes remain buffered,
a terminal event preserves the buffered bytes, and a subsequent read of
`l ≤ bufferedLength` bytes leaves the instance readable iff it consumed
strictly less than everything. -/
theorem slicer_readable_until_drained :
    (∀ s : State, s.isReadable = false ↔ (s.ended = true ∧ s.bufferedLength = 0)) ∧
    (∀ s : State, s.pendingReads = [] → s.ended = false →
      s.onEnd.1.bufferedLength = s.bufferedLength ∧
        (s.onEnd.1.isReadable = true ↔ 0 < s.bufferedLength)) ∧
    (∀ (s : State) (l : Nat), s.pendingReads = [] → Inv s → s.ended = true →
      l ≤ s.bufferedLength →
      ((s.read none 0 (some l)).1.isReadable = true ↔ l < s.bufferedLength)) := by
  refine ⟨?_, ?_, ?_⟩
  · intro s
    unfold State.isReadable
    cases hb : s.ended <;> simp [hb]
  · intro s hq hend
    have hoe : s.onEnd = ({ s with ended := true, pendingReads := [] }, []) := by
      unfold State.onEnd
      rw [if_neg (by simp [hend])]
      unfold State.triggerIfPossible State.detach
      simp only [hq, triggerLoop]
    rw [hoe]
    constructor
    · rfl
    · unfold State.isReadable
      simp only [Bool.true_and]
      constructor
      · intro h
        simp only [Bool.not_eq_true', beq_eq_false_iff_ne, ne_eq] at h
        omega
      · intro h
        simp only [Bool.not_eq_true', beq_eq_false_iff_ne, ne_eq]
        omega
  · intro s l hq hinv hE hle
    unfold State.read State.queue
    rw [if_pos hq, hE]
    by_cases hz : l = 0
    · subst hz
      simp only [trigger_zero ⟨none, 0, some 0⟩ s true rfl]
      unfold State.isReadable
      rw [hE]
      simp only [Bool.true_and]
      constructor
      · intro h
        simp only [Bool.not_eq_true', beq_eq_false_iff_ne, ne_eq] at h
        omega
      · intro h
        simp only [Bool.not_eq_true', beq_eq_false_iff_ne, ne_eq]
        omega
    · have hff := trigger_fresh_fires s l true hz hle hinv
      simp only [hff.1]
      unfold State.isReadable
      rw [hff.2.2.2.2.2.1, hE, hff.2.2.1]
      simp only [Bool.true_and]
      constructor
      · intro h
        simp only [Bool.not_eq_true', beq_eq_false_iff_ne, ne_eq] at h
        omega
      · intro h
        simp only [Bool.not_eq_true', beq_eq_false_iff_ne, ne_eq]
        omega

/-- Witness for C10: an ended Slicer with 2 bytes buffered stays readable
after a 1-byte read and stops being readable after the 2-byte read that
drains it. -/
theorem slicer_readable_until_drained_witness :
    ((State.mk [] [[10, 20]] 2 none true).read none 0 (some 1)).1.isReadable = true ∧
    ¬((State.mk [] [[10, 20]] 2 none true).read none 0 (some 2)).1.isReadable = true :=
  ⟨(slicer_readable_until_drained.2.2 (State.mk [] [[10, 20]] 2 none true) 1
      rfl (by decide) rfl (by decide)).mpr (by decide),
    fun h =>
      absurd ((slicer_readable_until_drained.2.2 (State.mk [] [[10, 20]] 2 none true) 2
        rfl (by decide) rfl (by decide)).mp h) (by decide)⟩

end Slicer

namespace Dropper

/-- The `ifPartial` option values, from consts.js (`EMIT`, `ERROR`,
`IGNORE`, `PAD`). -/
inductive IfPartial where
  | emit
  | error
  | ignore
  | pad
deriving DecidableEq, Repr

/-- Dropper state, from the `State` constructor in lib/dropper.js:
the pending partial chunk, whether `this.emitter` is still defined
(`destroy` clears it), and the three options.  The wrapped Valve source is
only used for subscription/destroy and the `decoder` is the identity (see
module comment). -/
structure State where
  pendingData : Option (List Nat)
  emitterAlive : Bool
  blockSize : Nat
  allowMultiple : Bool
  ifPartial : IfPartial
deriving DecidableEq, Repr

/-- The block-emission loop of `onData`
(`for (var i = 0; i < length; i += blockSize) emitData(data.slice(i, i + blockSize))`)
as a recursive chunker.  Its argument always has positive length that is a
multiple of `blockSize`, and the option validator enforces `size ≥ 1`
(`isSize`), hence the `blockSize = 0` guard is never taken. -/
def emitLoop (bs : Nat) (data : List Nat) : List (List Nat) :=
  if data = [] ∨ bs = 0 then []
  else data.take bs :: emitLoop bs (data.drop bs)
termination_by data.length
decreasing_by
  simp only [List.length_drop]
  have h1 : data ≠ [] := fun he => (by simp [he] at *)
  have h2 : 0 < data.length := List.length_pos.mpr h1
  omega

/-- The tail of `State.prototype.onData`, after the pending-partial merge:
retain short data as the new pending partial; otherwise split off the
non-multiple remainder (retaining it as pending) and emit the rest as one
event (`allowMultiple`) or block by block. -/
def State.onDataBlocks (s : State) (data : List Nat) : State × List Ev :=
  if data.length < s.blockSize then ({ s with pendingData := some data }, [])
  else
    let leftover := data.length % s.blockSize
    let p := if leftover ≠ 0 then
        ({ s with pendingData := some (data.drop (data.length - leftover)) },
          data.take (data.length - leftover))
      else (s, data)
    if s.allowMultiple then (p.1, [Ev.data p.2])
    else (p.1, (emitLoop s.blockSize p.2).map Ev.data)

/-- `State.prototype.onData`: a non-empty pending partial absorbs the new
bytes first (empty incoming data is dropped in that case), then the block
emission runs. -/
def State.onData (s : State) (data : List Nat) : State × List Ev :=
  match s.pendingData with
  | some p =>
    if p.length ≠ 0 then
      if data.length = 0 then (s, [])
      else State.onDataBlocks { s with pendingData := none } (p ++ data)
    else s.onDataBlocks data
  | none => s.onDataBlocks data

/-- The payload of `new Error("Partial buffer at end.")`. -/
def shortError : JSVal := JSVal.errObj "Partial buffer at end."

/-- `State.prototype.emitFinalEvents(gotError, error)`: a no-op once the
emitter is gone; otherwise resolve a non-empty trailing partial per the
`ifPartial` policy, emit the terminal event then `close`, and destroy
(modelled by clearing `emitterAlive`; `destroy` also destroys the wrapped
Valve, which is not observable here). -/
def State.emitFinalEvents (s : State) (gotError : Bool) (error : JSVal) :
    State × List Ev :=
  if s.emitterAlive = false then (s, [])
  else
    let d := s.pendingData.getD []
    let part : List Ev × Bool × JSVal :=
      if d.length ≠ 0 then
        match s.ifPartial with
        | IfPartial.emit => ([Ev.data d], gotError, error)
        | IfPartial.error =>
          if gotError then ([], gotError, error) else ([], true, shortError)
        | IfPartial.ignore => ([], gotError, error)
        | IfPartial.pad =>
          ([Ev.data (d ++ List.replicate (s.blockSize - d.length) 0)],
            gotError, error)
      else ([], gotError, error)
    let term := if part.2.1 then Ev.error part.2.2 else Ev.fin
    ({ s with emitterAlive := false }, part.1 ++ [term, Ev.close])

/-- `State.prototype.onCloseOrEnd` (bound to the wrapped Valve's `end` and
`close` events; the argument is ignored). -/
def State.onCloseOrEnd (s : State) : State × List Ev :=
  s.emitFinalEvents false JSVal.undef

/-- `State.prototype.onError`. -/
def State.onError (s : State) (error : JSVal) : State × List Ev :=
  s.emitFinalEvents true error

/-- A Dropper as constructed by
`new Dropper(source, {size, allowMultiple, ifPartial})`. -/
def construct (blockSize : Nat) (allowMultiple : Bool) (ifPartial : IfPartial) :
    State :=
  { pendingData := none, emitterAlive := true, blockSize := blockSize,
    allowMultiple := allowMultiple, ifPartial := ifPartial }

/-- Feed a list of data chunks from the wrapped Valve. -/
def feed (s : State) : List (List Nat) → State × List Ev
  | [] => (s, [])
  | c :: rest =>
    let p := s.onData c
    let q := feed p.1 rest
    (q.1, p.2 ++ q.2)

/-- A complete normally-terminated run: the chunks arrive as Data events,
then the wrapped Valve delivers `end` followed by `close` (the second
`onCloseOrEnd` fires on a dead emitter and adds nothing). -/
def dropRun (blockSize : Nat) (ifPartial : IfPartial) (cs : List (List Nat)) :
    List Ev :=
  let p := feed (construct blockSize false ifPartial) cs
  let q := p.1.onCloseOrEnd
  let r := q.1.onCloseOrEnd
  p.2 ++ q.2 ++ r.2

/-- The whole `bs`-sized blocks of a byte sequence, in order. -/
def fullChunks (bs : Nat) (data : List Nat) : List (List Nat) :=
  if data.length < bs ∨ bs = 0 then []
  else data.take bs :: fullChunks bs (data.drop bs)
termination_by data.length
decreasing_by
  simp only [List.length_drop]
  omega

/-- What remains of a byte sequence after removing its whole `bs`-sized
blocks. -/
def dropBlocks (bs : Nat) (data : List Nat) : List Nat :=
  if data.length < bs ∨ bs = 0 then data
  else dropBlocks bs (data.drop bs)
termination_by data.length
decreasing_by
  simp only [List.length_drop]
  omega

end Dropper

namespace Dropper

theorem fullChunks_length (bs : Nat) (hbs : bs ≠ 0) (data : List Nat) :
    (fullChunks bs data).length = data.length / bs := by
  rw [fullChunks]
  by_cases h : data.length < bs
  · rw [if_pos (Or.inl h), Nat.div_eq_of_lt h]
    rfl
  · push_neg at h
    rw [if_neg (by omega)]
    simp only [List.length_cons]
    rw [fullChunks_length bs hbs (data.drop bs), List.length_drop,
      Nat.div_eq_sub_div (by omega) h]
termination_by data.length
decreasing_by simp only [List.length_drop]; omega

theorem fullChunks_block_length (bs : Nat) (data : List Nat) :
    ∀ b ∈ fullChunks bs data, b.length = bs := by
  intro b hb
  rw [fullChunks] at hb
  by_cases h : data.length < bs ∨ bs = 0
  · rw [if_pos h] at hb
    cases hb
  · rw [if_neg h] at hb
    push_neg at h
    rcases List.mem_cons.mp hb with h1 | h2
    · rw [h1, List.length_take]
      omega
    · exact fullChunks_block_length bs (data.drop bs) b h2
termination_by data.length
decreasing_by
  simp only [List.length_drop]
  omega

theorem dropBlocks_eq_drop (bs : Nat) (hbs : bs ≠ 0) (data : List Nat) :
    dropBlocks bs data = data.drop (bs * (data.length / bs)) := by
  rw [dropBlocks]
  by_cases h : data.length < bs
  · rw [if_pos (Or.inl h), Nat.div_eq_of_lt h, Nat.mul_zero, List.drop_zero]
  · push_neg at h
    rw [if_neg (by omega), dropBlocks_eq_drop bs hbs (data.drop bs),
      List.drop_drop, List.length_drop]
    congr 1
    rw [Nat.div_eq_sub_div (by omega) h, Nat.mul_add, Nat.mul_one]
    omega
termination_by data.length
decreasing_by simp only [List.length_drop]; omega

theorem dropBlocks_length (bs : Nat) (hbs : bs ≠ 0) (data : List Nat) :
    (dropBlocks bs data).length = data.length % bs := by
  rw [dropBlocks_eq_drop bs hbs, List.length_drop]
  have h1 := Nat.div_add_mod data.length bs
  have h2 : data.length % bs < bs := Nat.mod_lt _ (by omega)
  omega

theorem emitLoop_take (bs : Nat) (hbs : bs ≠ 0) (data : List Nat) :
    emitLoop bs (data.take (bs * (data.length / bs))) = fullChunks bs data := by
  by_cases h : data.length < bs
  · rw [Nat.div_eq_of_lt h, Nat.mul_zero, List.take_zero, emitLoop, fullChunks,
      if_pos (Or.inl rfl), if_pos (Or.inl h)]
  · push_neg at h
    have hmle : bs * (data.length / bs) ≤ data.length := by
      have := Nat.div_add_mod data.length bs
      omega
    have hbsle : bs ≤ bs * (data.length / bs) := by
      have h1 : 1 ≤ data.length / bs := (Nat.one_le_div_iff (by omega)).mpr h
      calc bs = bs * 1 := by omega
        _ ≤ bs * (data.length / bs) := Nat.mul_le_mul_left bs h1
    have htlen : (data.take (bs * (data.length / bs))).length =
        bs * (data.length / bs) := by
      rw [List.length_take]
      exact min_eq_left hmle
    have htne : data.take (bs * (data.length / bs)) ≠ [] := by
      intro he
      have h0 := congrArg List.length he
      rw [htlen] at h0
      simp at h0
      rcases h0 with h0 | h0
      · exact hbs h0
      · have h1 : 1 ≤ data.length / bs := (Nat.one_le_div_iff (by omega)).mpr h
        omega
    rw [emitLoop, if_neg (by simp [htne, hbs]), fullChunks, if_neg (by omega)]
    congr 1
    · rw [List.take_take, min_eq_left hbsle]
    · rw [List.drop_take, show bs * (data.length / bs) - bs =
          bs * ((data.length - bs) / bs) from by
        rw [Nat.div_eq_sub_div (by omega) h, Nat.mul_add, Nat.mul_one]
        omega]
      have := emitLoop_take bs hbs (data.drop bs)
      rw [List.length_drop] at this
      exact this
termination_by data.length
decreasing_by simp only [List.length_drop]; omega

theorem chunks_append (bs : Nat) (hbs : bs ≠ 0) (X d : List Nat) :
    fullChunks bs (X ++ d) =
      fullChunks bs X ++ fullChunks bs (dropBlocks bs X ++ d) ∧
    dropBlocks bs (X ++ d) = dropBlocks bs (dropBlocks bs X ++ d) := by
  by_cases h : X.length < bs
  · have h1 : fullChunks bs X = [] := by
      rw [fullChunks, if_pos (Or.inl h)]
    have h2 : dropBlocks bs X = X := by
      rw [dropBlocks, if_pos (Or.inl h)]
    rw [h1, h2, List.nil_append]
    exact ⟨rfl, rfl⟩
  · push_neg at h
    have hlen : ¬((X ++ d).length < bs ∨ bs = 0) := by
      rw [List.length_append]
      omega
    have htk : (X ++ d).take bs = X.take bs := List.take_append_of_le_length h
    have hdr : (X ++ d).drop bs = X.drop bs ++ d := List.drop_append_of_le_length h
    have h1 : fullChunks bs (X ++ d) =
        X.take bs :: fullChunks bs (X.drop bs ++ d) := by
      rw [fullChunks, if_neg hlen, htk, hdr]
    have h2 : fullChunks bs X = X.take bs :: fullChunks bs (X.drop bs) := by
      rw [fullChunks, if_neg (by omega)]
    have h3 : dropBlocks bs X = dropBlocks bs (X.drop bs) := by
      rw [dropBlocks, if_neg (by omega)]
    have h4 : dropBlocks bs (X ++ d) = dropBlocks bs (X.drop bs ++ d) := by
      rw [dropBlocks, if_neg hlen, hdr]
    obtain ⟨ih1, ih2⟩ := chunks_append bs hbs (X.drop bs) d
    constructor
    · rw [h1, h2, h3, ih1, List.cons_append]
    · rw [h4, h3, ih2]
termination_by X.length
decreasing_by all_goals (simp only [List.length_drop]; omega)

end Dropper

namespace Dropper

/-- Specification of the block-emission tail of `onData` when the pending
slot holds no bytes: it emits exactly the whole blocks of `data` and
retains exactly the rest. -/
theorem onDataBlocks_spec (s : State) (data : List Nat)
    (hbs : s.blockSize ≠ 0) (hmul : s.allowMultiple = false)
    (hpd0 : s.pendingData.getD [] = []) :
    ∃ pd1, s.onDataBlocks data =
        ({ s with pendingData := pd1 },
          (fullChunks s.blockSize data).map Ev.data) ∧
      pd1.getD [] = dropBlocks s.blockSize data := by
  unfold State.onDataBlocks
  by_cases h : data.length < s.blockSize
  · refine ⟨some data, ?_, ?_⟩
    · rw [if_pos h, fullChunks, if_pos (Or.inl h)]
      rfl
    · rw [dropBlocks, if_pos (Or.inl h)]
      rfl
  · push_neg at h
    rw [if_neg (by omega)]
    dsimp only
    have hsub : data.length - data.length % s.blockSize =
        s.blockSize * (data.length / s.blockSize) := by
      have := Nat.div_add_mod data.length s.blockSize
      omega
    by_cases hlo : data.length % s.blockSize ≠ 0
    · rw [if_pos hlo]
      refine ⟨some (data.drop (data.length - data.length % s.blockSize)), ?_, ?_⟩
      · rw [if_neg (by simp [hmul])]
        rw [hsub, emitLoop_take s.blockSize hbs data]
      · simp only [Option.getD_some]
        rw [hsub, dropBlocks_eq_drop s.blockSize hbs]
    · rw [if_neg hlo]
      push_neg at hlo
      refine ⟨s.pendingData, ?_, ?_⟩
      · rw [if_neg (by simp [hmul])]
        have hall : s.blockSize * (data.length / s.blockSize) = data.length := by
          have := Nat.div_add_mod data.length s.blockSize
          omega
        have := emitLoop_take s.blockSize hbs data
        rw [hall, List.take_length] at this
        rw [this]
      · rw [hpd0]
        have hlen0 : (dropBlocks s.blockSize data).length = 0 := by
          rw [dropBlocks_length s.blockSize hbs, hlo]
        exact (List.eq_nil_of_length_eq_zero hlen0).symm

/-- Specification of `onData`: from a state whose pending partial is
shorter than a block, the handler emits exactly the whole blocks of
pending-plus-new bytes and retains exactly the rest. -/
theorem onData_spec (s : State) (d : List Nat)
    (hbs : s.blockSize ≠ 0) (hmul : s.allowMultiple = false)
    (hpend : (s.pendingData.getD []).length < s.blockSize) :
    ∃ pd1, s.onData d =
        ({ s with pendingData := pd1 },
          (fullChunks s.blockSize ((s.pendingData.getD []) ++ d)).map Ev.data) ∧
      pd1.getD [] = dropBlocks s.blockSize ((s.pendingData.getD []) ++ d) := by
  unfold State.onData
  cases hpd : s.pendingData with
  | none =>
    simp only [Option.getD_none, List.nil_append]
    have := onDataBlocks_spec s d hbs hmul (by rw [hpd]; rfl)
    exact this
  | some p =>
    rw [hpd] at hpend
    simp only [Option.getD_some] at hpend ⊢
    by_cases hp : p.length ≠ 0
    · rw [if_pos hp]
      by_cases hd : d.length = 0
      · rw [if_pos hd]
        have hdnil : d = [] := List.eq_nil_of_length_eq_zero hd
        refine ⟨some p, ?_, ?_⟩
        · rw [hdnil, List.append_nil, fullChunks, if_pos (Or.inl hpend)]
          simp only [List.map_nil]
          rw [← hpd]
        · rw [hdnil, List.append_nil, dropBlocks, if_pos (Or.inl hpend)]
          rfl
      · rw [if_neg hd]
        obtain ⟨pd1, heq, hpd1⟩ := onDataBlocks_spec
          { s with pendingData := none } (p ++ d) hbs hmul rfl
        exact ⟨pd1, heq, hpd1⟩
    · rw [if_neg hp]
      push_neg at hp
      have hpnil : p = [] := List.eq_nil_of_length_eq_zero hp
      obtain ⟨pd1, heq, hpd1⟩ := onDataBlocks_spec s d hbs hmul (by rw [hpd, hpnil]; rfl)
      rw [hpnil, List.nil_append]
      exact ⟨pd1, heq, hpd1⟩

end Dropper

namespace Dropper

/-- Specification of feeding a whole chunk list: the Dropper emits exactly
the whole blocks of the concatenated bytes, in order, and retains exactly
the remainder as its pending partial. -/
theorem feed_spec (cs : List (List Nat)) (s : State)
    (hbs : s.blockSize ≠ 0) (hmul : s.allowMultiple = false)
    (hpend : (s.pendingData.getD []).length < s.blockSize) :
    ∃ pd1, feed s cs =
        ({ s with pendingData := pd1 },
          (fullChunks s.blockSize ((s.pendingData.getD []) ++ cs.flatten)).map
            Ev.data) ∧
      pd1.getD [] =
        dropBlocks s.blockSize ((s.pendingData.getD []) ++ cs.flatten) := by
  induction cs generalizing s with
  | nil =>
    refine ⟨s.pendingData, ?_, ?_⟩
    · rw [show feed s [] = (s, []) from rfl]
      rw [List.flatten_nil, List.append_nil, fullChunks, if_pos (Or.inl hpend)]
      rfl
    · rw [List.flatten_nil, List.append_nil, dropBlocks, if_pos (Or.inl hpend)]
  | cons c rest ih =>
    obtain ⟨pd1, heq1, hpd1⟩ := onData_spec s c hbs hmul hpend
    have hpend1 : (pd1.getD []).length < s.blockSize := by
      rw [hpd1, dropBlocks_length s.blockSize hbs]
      exact Nat.mod_lt _ (by omega)
    obtain ⟨pd2, heq2, hpd2⟩ := ih { s with pendingData := pd1 } hbs hmul hpend1
    simp only at heq2 hpd2
    obtain ⟨hsplit1, hsplit2⟩ := chunks_append s.blockSize hbs
      ((s.pendingData.getD []) ++ c) rest.flatten
    refine ⟨pd2, ?_, ?_⟩
    · simp only [feed]
      rw [heq1]
      simp only
      rw [heq2]
      simp only [Prod.mk.injEq]
      refine ⟨trivial, ?_⟩
      rw [hpd1, ← List.map_append, ← hsplit1, List.flatten_cons,
        List.append_assoc]
    · rw [hpd2, hpd1, ← hsplit2, List.flatten_cons, List.append_assoc]

end Dropper

namespace Dropper

/-- The expected tail of a normally-terminated run: the trailing partial
resolved per policy, then the terminal event and `close`. -/
def finalEvents (bs : Nat) (policy : IfPartial) (rem : List Nat) : List Ev :=
  if rem.length = 0 then [Ev.fin, Ev.close]
  else
    match policy with
    | IfPartial.emit => [Ev.data rem, Ev.fin, Ev.close]
    | IfPartial.error => [Ev.error shortError, Ev.close]
    | IfPartial.ignore => [Ev.fin, Ev.close]
    | IfPartial.pad =>
      [Ev.data (rem ++ List.replicate (bs - rem.length) 0), Ev.fin, Ev.close]

/-- A normal termination on a live Dropper resolves the trailing partial
per the configured policy, emits the terminal event then `close`, and
kills the emitter. -/
theorem emitFinal_spec (s : State) (halive : s.emitterAlive = true) :
    s.onCloseOrEnd = ({ s with emitterAlive := false },
      finalEvents s.blockSize s.ifPartial (s.pendingData.getD [])) := by
  unfold State.onCloseOrEnd State.emitFinalEvents finalEvents
  rw [if_neg (by simp [halive])]
  by_cases hd : (s.pendingData.getD []).length = 0
  · simp only [if_neg (not_not_intro hd), if_pos hd]
    simp
  · simp only [if_pos hd, if_neg hd]
    cases s.ifPartial <;> simp

/-- A second terminal event on a dead Dropper adds nothing. -/
theorem emitFinal_dead (s : State) (hdead : s.emitterAlive = false) :
    s.onCloseOrEnd = (s, []) := by
  unfold State.onCloseOrEnd State.emitFinalEvents
  rw [if_pos hdead]

/-- C7: for block size `B > 0` with `allowMultiple = false` and any chunk
partition `cs` of the input delivered before the terminal event, the
Dropper emits exactly the `⌊L/B⌋` whole `B`-byte blocks of the
concatenated input (in order, each exactly `B` bytes), followed — never
interleaved — by the terminal sequence in which the `L mod B`-byte
remainder is resolved per the `ifPartial` policy: emitted unchanged,
dropped, zero-padded to `B` bytes, or turned into an Error. -/
theorem dropper_block_rechunk (B : Nat) (hB : 0 < B) (policy : IfPartial)
    (cs : List (List Nat)) :
    dropRun B policy cs =
      (fullChunks B cs.flatten).map Ev.data ++
        finalEvents B policy (dropBlocks B cs.flatten) ∧
    (fullChunks B cs.flatten).length = cs.flatten.length / B ∧
    (∀ b ∈ fullChunks B cs.flatten, b.length = B) ∧
    (dropBlocks B cs.flatten).length = cs.flatten.length % B := by
  have hbs : B ≠ 0 := by omega
  obtain ⟨pd1, hfeed, hpd⟩ := feed_spec cs (construct B false policy) hbs rfl
    (by show (0 : Nat) < B; omega)
  simp only [construct, Option.getD_none, List.nil_append] at hfeed hpd
  refine ⟨?_, fullChunks_length B hbs _, fullChunks_block_length B _,
    dropBlocks_length B hbs _⟩
  unfold dropRun
  simp only [construct]
  rw [hfeed]
  simp only
  rw [emitFinal_spec _ rfl]
  simp only
  rw [emitFinal_dead _ rfl]
  simp only [List.append_nil]
  rw [hpd]

/-- Witness for C7: block size 2 with the `emit` policy over chunks
`[1,2,3]` and `[4]`: two 2-byte blocks, the 1-byte remainder emitted
unchanged, then End and Close. -/
theorem dropper_block_rechunk_witness :
    0 < 2 ∧
    dropRun 2 IfPartial.emit [[1, 2, 3], [4]] =
      [Ev.data [1, 2], Ev.data [3, 4], Ev.fin, Ev.close] :=
  ⟨by decide,
    (dropper_block_rechunk 2 (by decide) IfPartial.emit [[1, 2, 3], [4]]).1.trans
      (by simp [fullChunks, dropBlocks, finalEvents])⟩

end Dropper

namespace Cat

/-- Cat state (second `State` version in lib/cat.js) together with its
sub-Valves: `streams` is the ordered list of Valve wrappers (head =
current), `streamsDefined` models `this.streams` not yet set to
`undefined` by `destroy` (the destroyed valve states are retained in the
model for observation; no operation reads them once `streamsDefined` is
false), and `emitterAlive` models `this.emitter`.  The `decoder` is the
identity (see module comment). -/
structure Sys where
  streams : List Valve.State
  streamsDefined : Bool
  paused : Bool
  readable : Bool
  emitterAlive : Bool
deriving DecidableEq, Repr

/-- `State.prototype.destroy`: destroy every remaining sub-Valve, drop
the list, clear `paused`/`readable`, drop the emitter. -/
def Sys.destroy (sys : Sys) : Sys :=
  { streams := if sys.streamsDefined then sys.streams.map Valve.State.destroy
      else sys.streams,
    streamsDefined := false, paused := false, readable := false,
    emitterAlive := false }

/-- The work items of the Cat/Valve event cascade: a list of normalized
events to route into the Cat's handlers, a single such event, or the
resume-replay of a sub-Valve's buffer (each buffered record re-enters the
valve's own handler, whose emissions are routed to the Cat). -/
inductive Job where
  | events (evs : List Ev)
  | one (ev : Ev)
  | replay (raws : List Raw) (v : Valve.State)
deriving Repr

/-- One fueled step of the cascade.  The fuel only bounds the nesting of
`onEnd`-triggered resumes; every transition the claims exercise consumes
a constant amount.  Dispatch of `Job.one`:
`data` → `State.prototype.onData` (emit; the emitter is always alive when
a live valve delivers, since `destroy` detaches every valve first);
`end` → `State.prototype.onEnd` (drop the finished head valve, then
either finish with `end`+`close` or resume the next valve, replaying its
buffer); `error` → `State.prototype.onError` (emit `error` then `close`,
then destroy); `close` is never routed (the Cat does not subscribe to its
valves' `close`). -/
def catStep : Nat → Job → Sys → Sys × List Ev
  | 0, _, sys => (sys, [])
  | f + 1, job, sys =>
    match job with
    | Job.events [] => (sys, [])
    | Job.events (ev :: rest) =>
      let p := catStep f (Job.one ev) sys
      let q := catStep f (Job.events rest) p.1
      (q.1, p.2 ++ q.2)
    | Job.one Ev.close => (sys, [])
    | Job.one (Ev.data d) =>
      if sys.emitterAlive then (sys, [Ev.data d]) else (sys, [])
    | Job.one (Ev.error e) =>
      if sys.emitterAlive then (sys.destroy, [Ev.error e, Ev.close])
      else (sys, [])
    | Job.one Ev.fin =>
      if sys.readable = false then (sys, [])
      else
        match sys.streams with
        | [] => (sys, [])
        | _v0 :: rest =>
          match rest with
          | [] => ({ sys with streams := [], readable := false },
              [Ev.fin, Ev.close])
          | v1 :: rest2 =>
            if v1.paused then
              catStep f (Job.replay v1.buffer { v1 with paused := false })
                { sys with streams := { v1 with paused := false } :: rest2 }
            else ({ sys with streams := v1 :: rest2 }, [])
    | Job.replay [] _ => (sys, [])
    | Job.replay (r :: rest) v =>
      let p := v.handle r
      let q := catStep f (Job.events p.2) sys
      let z := catStep f (Job.replay rest p.1) q.1
      (z.1, q.2 ++ z.2)

/-- Deliver one raw source event to the current (head) sub-Valve: the
valve's handler runs first (possibly self-destroying), its emissions are
then routed through the Cat.  While the cascade runs, `streams[0]` can be
a stale copy of the threaded valve state; the Cat only ever destroys or
discards that copy, never reads its fields, so the observable behaviour
agrees with the aliased JS objects. -/
def deliverToHead (f : Nat) (r : Raw) (sys : Sys) : Sys × List Ev :=
  match sys.streams with
  | [] => (sys, [])
  | v :: rest =>
    let p := v.handle r
    catStep f (Job.events p.2) { sys with streams := p.1 :: rest }

/-- A Cat as constructed over already-wrapped paused sub-Valves. -/
def construct (valves : List Valve.State) : Sys :=
  { streams := valves, streamsDefined := true, paused := true,
    readable := true, emitterAlive := true }

/-- `State.prototype.resume`: a no-op unless paused and readable;
otherwise clear `paused` and resume the current head valve, replaying its
buffer through the Cat. -/
def Sys.resume (f : Nat) (sys : Sys) : Sys × List Ev :=
  if sys.paused ∧ sys.readable then
    match sys.streams with
    | [] => ({ sys with paused := false }, [])
    | v :: rest =>
      if v.paused then
        catStep f (Job.replay v.buffer { v with paused := false })
          { sys with paused := false, streams := { v with paused := false } :: rest }
      else ({ sys with paused := false }, [])
  else (sys, [])

theorem catStep_events_nil (f : Nat) (sys : Sys) :
    catStep f (Job.events []) sys = (sys, []) := by
  cases f <;> rfl

end Cat

namespace Cat

/-- C8: when the current sub-source of a live Cat emits `Error(e)` (through
its live, unpaused Valve wrapper), the Cat emits exactly `Error(e)`
followed by exactly one `Close`; every sub-Valve — the erroring one and
all remaining ones — is destroyed without being resumed or having its
buffered data observed (each ends up ended, unpaused, with an empty
buffer, and reacting to nothing), and no later source event produces any
further downstream event. -/
theorem cat_error_aborts (sys : Sys) (v : Valve.State) (rest : List Valve.State)
    (e : JSVal) (f : Nat)
    (hs : sys.streams = v :: rest) (hsd : sys.streamsDefined = true)
    (hE : sys.emitterAlive = true) (hvp : v.paused = false)
    (hve : v.ended = false) (hva : v.emitterAlive = true) :
    (deliverToHead (f + 3) (Raw.error e) sys).2 = [Ev.error e, Ev.close] ∧
    (deliverToHead (f + 3) (Raw.error e) sys).1.readable = false ∧
    (deliverToHead (f + 3) (Raw.error e) sys).1.emitterAlive = false ∧
    (∀ w ∈ (deliverToHead (f + 3) (Raw.error e) sys).1.streams,
      w.ended = true ∧ w.paused = false ∧ w.buffer = [] ∧
        ∀ r : Raw, w.handle r = (w, [])) ∧
    (∀ (f2 : Nat) (r2 : Raw),
      (deliverToHead f2 r2 (deliverToHead (f + 3) (Raw.error e) sys).1).2 = []) := by
  obtain ⟨streams, sd, pz, rd, ea⟩ := sys
  simp only at hs hsd hE
  subst hs
  subst hsd
  subst hE
  have hhandle : v.handle (Raw.error e) =
      (Valve.State.destroy v, [Ev.error e, Ev.close]) := by
    simp [Valve.State.handle, hvp, Valve.State.finish, hve, hva]
  have hkey : deliverToHead (f + 3) (Raw.error e)
      (Sys.mk (v :: rest) true pz rd true) =
      (Sys.mk ((Valve.State.destroy v :: rest).map Valve.State.destroy)
        false false false false, [Ev.error e, Ev.close]) := by
    show catStep (f + 3) (Job.events (v.handle (Raw.error e)).2)
      (Sys.mk ((v.handle (Raw.error e)).1 :: rest) true pz rd true) = _
    rw [hhandle]
    show (catStep (f + 3) (Job.events [Ev.error e, Ev.close])
      (Sys.mk (Valve.State.destroy v :: rest) true pz rd true)) = _
    simp [catStep, Sys.destroy, catStep_events_nil]
  rw [hkey]
  refine ⟨rfl, rfl, rfl, ?_, ?_⟩
  · intro w hw
    obtain ⟨x, hx, hxw⟩ := List.mem_map.mp hw
    have hwd : w = Valve.State.mk false [] true false := hxw.symm
    subst hwd
    exact ⟨rfl, rfl, rfl, fun r => Valve.handle_destroyed _ r rfl rfl⟩
  · intro f2 r2
    show (catStep f2 (Job.events
      ((Valve.State.destroy (Valve.State.destroy v)).handle r2).2) _).2 = []
    rw [Valve.handle_destroyed _ r2 rfl rfl, catStep_events_nil]

/-- Witness for C8: a Cat over an active first Valve and a paused second
Valve holding buffered data; the first source erroring yields exactly
`Error, Close`, the second Valve is destroyed unresumed, and nothing is
emitted afterwards. -/
theorem cat_error_aborts_witness :
    (deliverToHead 3 (Raw.error (JSVal.str "boom"))
        (Sys.mk [Valve.State.mk false [] false true,
          Valve.State.mk true [Raw.data [9], Raw.fin] false true]
          true false true true)).2 =
      [Ev.error (JSVal.str "boom"), Ev.close] ∧
    (∀ w ∈ (deliverToHead 3 (Raw.error (JSVal.str "boom"))
        (Sys.mk [Valve.State.mk false [] false true,
          Valve.State.mk true [Raw.data [9], Raw.fin] false true]
          true false true true)).1.streams, w.ended = true ∧ w.buffer = []) :=
  have h := cat_error_aborts
    (Sys.mk [Valve.State.mk false [] false true,
      Valve.State.mk true [Raw.data [9], Raw.fin] false true] true false true true)
    (Valve.State.mk false [] false true)
    [Valve.State.mk true [Raw.data [9], Raw.fin] false true]
    (JSVal.str "boom") 0 rfl rfl rfl rfl rfl rfl
  ⟨h.1, fun w hw => ⟨(h.2.2.2.1 w hw).1, (h.2.2.2.1 w hw).2.2.1⟩⟩

end Cat
